import Mathlib

/-!
Shallow embedding of the `pdsl_core` storage collections
(`src/pdsl_core/src/storage/collections/stash/stash.rs`,
`src/pdsl_core/src/collections/storage_map.rs`,
`src/pdsl_core/src/storage/cell/typed_cell.rs`) and proofs about them.

All `u32` machine integers are modelled as `Nat` with explicit `% 2^32`
wherever the Rust code performs wrapping arithmetic.  The backing
`SyncChunk`/`SyncedChunk` layer (not part of the excerpt) is modelled,
following the spec, as a total function from indices to optional entries
together with pointwise update; its `get`/`set`/`replace`/`remove`
operations are read/update of that function.
-/

/-- The modulus of `u32` arithmetic, `2^32`. -/
def u32Mod : Nat := 4294967296

theorem u32Mod_pos : 0 < u32Mod := by decide

/-- Modelled from the spec: the chunk layer (`SyncChunk` / `SyncedChunk`,
whose source is not in the excerpt) maps each `u32` index to an
independently addressed cell.  `upd e i v` is the mapping after the cell
at index `i` has been set to `v` (`set`/`replace` with `v = some _`,
`remove` with `v = none`); all other indices are untouched. -/
def upd {α : Type} (e : Nat → Option α) (i : Nat) (v : Option α) : Nat → Option α :=
  fun j => if j = i then v else e j

theorem upd_self {α : Type} (e : Nat → Option α) (i : Nat) (v : Option α) :
    upd e i v i = v := by
  simp [upd]

theorem upd_ne {α : Type} (e : Nat → Option α) (i : Nat) (v : Option α)
    (j : Nat) (h : j ≠ i) : upd e i v j = e j := by
  simp [upd, h]

/-- An entry of the stash (`enum Entry<T>` in `stash.rs`): either a vacant
slot holding the next free-list index, or an occupied slot holding a value. -/
inductive StashEntry (V : Type) where
  | vacant (next : Nat)
  | occupied (val : V)
deriving DecidableEq

/-- The stash (`struct Stash<T>` in `stash.rs`): `next_vacant`, `len` and
`max_len` counters (each a `u32` cell, reading `0` when never written,
per `unwrap_or(&0)`) plus the entries chunk. -/
structure Stash (V : Type) where
  next_vacant : Nat
  len : Nat
  max_len : Nat
  entries : Nat → Option (StashEntry V)

namespace Stash

/-- A fresh stash: all counters read `0`, no entry was ever written. -/
def empty {V : Type} : Stash V :=
  { next_vacant := 0, len := 0, max_len := 0, entries := fun _ => none }

/-- `Stash::get`: the value at index `n`, if that slot is occupied. -/
def get {V : Type} (n : Nat) (s : Stash V) : Option V :=
  match s.entries n with
  | some (.occupied v) => some v
  | some (.vacant _) => none
  | none => none

/-- `Stash::put`.  Takes `current_vacant = next_vacant`; if it equals `len`
the value is appended there (`set`), `next_vacant` becomes `current_vacant+1`
and `max_len` is incremented; otherwise the slot at `current_vacant` is
`replace`d and must hold a `Vacant(next)` entry whose pointer becomes the new
`next_vacant`.  The `expect` firing on a never-written slot and the
`unreachable!` firing on an occupied slot are modelled as result `none`;
a normal return is `some (returned index, new state)`.  `len` is incremented
in both branches after the branch, as in the source. -/
def put {V : Type} (v : V) (s : Stash V) : Option (Nat × Stash V) :=
  let cv := s.next_vacant
  if cv = s.len then
    some (cv,
      { next_vacant := (cv + 1) % u32Mod
        len := (s.len + 1) % u32Mod
        max_len := (s.max_len + 1) % u32Mod
        entries := upd s.entries cv (some (.occupied v)) })
  else
    match s.entries cv with
    | some (.vacant nv2) =>
      some (cv,
        { next_vacant := nv2
          len := (s.len + 1) % u32Mod
          max_len := s.max_len
          entries := upd s.entries cv (some (.occupied v)) })
    | some (.occupied _) => none
    | none => none

/-- `Stash::take`.  A vacant or never-written slot is a no-op returning
`none`; an occupied slot is replaced by `Vacant(next_vacant)`, `next_vacant`
becomes `n`, and `len` is decremented (wrapping `u32` subtraction). -/
def take {V : Type} (n : Nat) (s : Stash V) : Option V × Stash V :=
  match s.entries n with
  | none => (none, s)
  | some (.vacant _) => (none, s)
  | some (.occupied v) =>
    (some v,
      { next_vacant := n
        len := (s.len + (u32Mod - 1)) % u32Mod
        max_len := s.max_len
        entries := upd s.entries n (some (.vacant s.next_vacant)) })

/-- `put` with a default, for naming intermediate states of concrete runs. -/
def putD {V : Type} (v : V) (s : Stash V) : Nat × Stash V :=
  (put v s).getD (0, s)

end Stash

/- Concrete run used by the C5 analysis: fresh stash, `put 10`, `take 0`,
`put 30`. -/

def c5s1 : Stash Nat := (Stash.putD 10 Stash.empty).2

def c5s2 : Stash Nat := (Stash.take 0 c5s1).2

def c5s3 : Stash Nat := (Stash.putD 30 c5s2).2

/-- C5, failing input: on a fresh stash, `put 10` returns index 0 and
`take 0` returns `Some 10`, after which `next_vacant == len` holds although
slot 0 has just been freed; the next `put 30` does return index 0, but it
takes the append branch and increments `max_len` from 1 to 2, contradicting
the claim that a reuse of a freed slot never extends `max_len` and that
`next_vacant == len` only holds when no slot was ever freed. -/
theorem c5_put_take_put_increments_max_len :
    (Stash.put 10 (Stash.empty : Stash Nat)).map Prod.fst = some 0 ∧
    c5s1.max_len = 1 ∧
    (Stash.take 0 c5s1).1 = some 10 ∧
    c5s2.next_vacant = c5s2.len ∧
    (Stash.put 30 c5s2).map Prod.fst = some 0 ∧
    c5s3.max_len = 2 := by
  decide

/- Concrete run used by the C4 analysis: fresh stash, `put 10`, `put 20`,
`take 1`, `put 30`. -/

def c4s1 : Stash Nat := (Stash.putD 10 Stash.empty).2

def c4s2 : Stash Nat := (Stash.putD 20 c4s1).2

def c4s3 : Stash Nat := (Stash.take 1 c4s2).2

def c4s4 : Stash Nat := (Stash.putD 30 c4s3).2

/-- C4, failing input: after `put 10; put 20; take 1; put 30` on a fresh
stash, `max_len = 3` while index `2 < max_len` was never written: it is
neither occupied nor on the free list (the free list head `next_vacant = 2`
itself dangles at a never-written slot), contradicting the claimed invariant
that every index in `[0, max_len)` is occupied or reachable from
`next_vacant`. -/
theorem c4_hole_below_max_len :
    (Stash.put 30 c4s3).map Prod.fst = some 1 ∧
    c4s4.max_len = 3 ∧
    c4s4.len = 2 ∧
    c4s4.next_vacant = 2 ∧
    c4s4.entries 2 = none ∧
    (2 : Nat) < c4s4.max_len := by
  decide

/-- The stash iterator (`struct Iter` in `stash.rs`): the current start
index, the current end index, and the number of already yielded items.
The source fields are `begin` and `end`; `end` is a Lean keyword, so they
are named `ibegin`/`iend` here. -/
structure StashIter where
  ibegin : Nat
  iend : Nat
  yielded : Nat
deriving DecidableEq

namespace StashIter

/-- `Iter::new`: starts at `0`, ends at `max_len`, nothing yielded. -/
def new {V : Type} (s : Stash V) : StashIter :=
  { ibegin := 0, iend := s.max_len, yielded := 0 }

/-- The `while self.begin < self.end` loop body of `Iterator::next`,
made structurally recursive on the fuel `iend - b` (which equals the
number of remaining loop iterations). -/
def nextFrom {V : Type} (s : Stash V) (iend yielded : Nat) : Nat → Nat → Option ((Nat × V) × StashIter)
  | _, 0 => none
  | b, fuel + 1 =>
    if b < iend then
      match Stash.get b s with
      | some v => some ((b, v), { ibegin := b + 1, iend := iend, yielded := yielded + 1 })
      | none => nextFrom s iend yielded (b + 1) fuel
    else none

/-- `Iterator::next`: returns `none` once `yielded` items equal the stash
length, otherwise scans forward from `begin`, skipping vacant slots. -/
def next {V : Type} (it : StashIter) (s : Stash V) : Option ((Nat × V) × StashIter) :=
  if it.yielded = s.len then none
  else nextFrom s it.iend it.yielded it.ibegin (it.iend - it.ibegin)

/-- The `while self.begin < self.end` loop body of `next_back`,
decrementing `end` before each slot test, fueled by `e - ibegin`. -/
def nextBackFrom {V : Type} (s : Stash V) (ibegin yielded : Nat) : Nat → Nat → Option ((Nat × V) × StashIter)
  | _, 0 => none
  | e, fuel + 1 =>
    if ibegin < e then
      match Stash.get (e - 1) s with
      | some v => some ((e - 1, v), { ibegin := ibegin, iend := e - 1, yielded := yielded + 1 })
      | none => nextBackFrom s ibegin yielded (e - 1) fuel
    else none

/-- `DoubleEndedIterator::next_back`. -/
def nextBack {V : Type} (it : StashIter) (s : Stash V) : Option ((Nat × V) × StashIter) :=
  if it.yielded = s.len then none
  else nextBackFrom s it.ibegin it.yielded it.iend (it.iend - it.ibegin)

/-- `Iterator::size_hint`: both bounds are exactly `len - yielded`. -/
def sizeHint {V : Type} (it : StashIter) (s : Stash V) : Nat × Option Nat :=
  (s.len - it.yielded, some (s.len - it.yielded))

end StashIter

/- Concrete run used by the C9 scenario: fresh stash, `put 10` (index 0),
`put 20` (index 1), `take 0` (yields 10), `put 30` (index 0 again). -/

def c9s1 : Stash Nat := (Stash.putD 10 Stash.empty).2

def c9s2 : Stash Nat := (Stash.putD 20 c9s1).2

def c9s3 : Stash Nat := (Stash.take 0 c9s2).2

def c9s : Stash Nat := (Stash.putD 30 c9s3).2

/-- C9: on a fresh stash `put 10` and `put 20` return indices 0 and 1,
`take 0` returns `Some 10`, the next `put 30` returns index 0 again;
forward iteration then yields exactly `(0,30), (1,20)` and backward
iteration yields exactly `(1,20), (0,30)`; at every step of both walks
`size_hint` reports exactly `len - yielded` in both bounds. -/
theorem c9_end_to_end_scenario :
    (Stash.put 10 (Stash.empty : Stash Nat)).map Prod.fst = some 0 ∧
    (Stash.put 20 c9s1).map Prod.fst = some 1 ∧
    (Stash.take 0 c9s2).1 = some 10 ∧
    (Stash.put 30 c9s3).map Prod.fst = some 0 ∧
    StashIter.new c9s = { ibegin := 0, iend := 2, yielded := 0 } ∧
    StashIter.next { ibegin := 0, iend := 2, yielded := 0 } c9s =
      some ((0, 30), { ibegin := 1, iend := 2, yielded := 1 }) ∧
    StashIter.next { ibegin := 1, iend := 2, yielded := 1 } c9s =
      some ((1, 20), { ibegin := 2, iend := 2, yielded := 2 }) ∧
    StashIter.next { ibegin := 2, iend := 2, yielded := 2 } c9s = none ∧
    StashIter.nextBack { ibegin := 0, iend := 2, yielded := 0 } c9s =
      some ((1, 20), { ibegin := 0, iend := 1, yielded := 1 }) ∧
    StashIter.nextBack { ibegin := 0, iend := 1, yielded := 1 } c9s =
      some ((0, 30), { ibegin := 0, iend := 0, yielded := 2 }) ∧
    StashIter.nextBack { ibegin := 0, iend := 0, yielded := 2 } c9s = none ∧
    StashIter.sizeHint { ibegin := 0, iend := 2, yielded := 0 } c9s = (2, some 2) ∧
    StashIter.sizeHint { ibegin := 1, iend := 2, yielded := 1 } c9s = (1, some 1) ∧
    StashIter.sizeHint { ibegin := 2, iend := 2, yielded := 2 } c9s = (0, some 0) ∧
    StashIter.sizeHint { ibegin := 0, iend := 1, yielded := 1 } c9s = (1, some 1) ∧
    StashIter.sizeHint { ibegin := 0, iend := 0, yielded := 2 } c9s = (0, some 0) ∧
    c9s.len = 2 := by
  decide

/-- The value-erased shape of a stash entry: free-list pointers are kept,
stored values are forgotten. -/
inductive StashEntryShape where
  | vacantS (next : Nat)
  | occS
deriving DecidableEq

/-- Erase the value of a stash entry, keeping the free-list structure. -/
def StashEntry.shape {V : Type} : StashEntry V → StashEntryShape
  | .vacant n => .vacantS n
  | .occupied _ => .occS

/-- Two stashes (over possibly different value types) agree on everything
except stored values: counters and the shape of every slot. -/
def ShapeEq {A B : Type} (s1 : Stash A) (s2 : Stash B) : Prop :=
  s1.next_vacant = s2.next_vacant ∧ s1.len = s2.len ∧ s1.max_len = s2.max_len ∧
  ∀ i, (s1.entries i).map StashEntry.shape = (s2.entries i).map StashEntry.shape

theorem map_shape_none {A B : Type} {o1 : Option (StashEntry A)} {o2 : Option (StashEntry B)}
    (h : o1.map StashEntry.shape = o2.map StashEntry.shape) (h1 : o1 = none) : o2 = none := by
  subst h1
  cases o2 with
  | none => rfl
  | some e => simp at h

theorem map_shape_vacant {A B : Type} {o1 : Option (StashEntry A)} {o2 : Option (StashEntry B)}
    {p : Nat} (h : o1.map StashEntry.shape = o2.map StashEntry.shape)
    (h1 : o1 = some (.vacant p)) : o2 = some (.vacant p) := by
  subst h1
  cases o2 with
  | none => simp at h
  | some e =>
    cases e with
    | vacant q => simp [StashEntry.shape] at h; simp [h]
    | occupied w => simp [StashEntry.shape] at h

theorem map_shape_occupied {A B : Type} {o1 : Option (StashEntry A)} {o2 : Option (StashEntry B)}
    {v : A} (h : o1.map StashEntry.shape = o2.map StashEntry.shape)
    (h1 : o1 = some (.occupied v)) : ∃ w, o2 = some (.occupied w) := by
  subst h1
  cases o2 with
  | none => simp at h
  | some e =>
    cases e with
    | vacant q => simp [StashEntry.shape] at h
    | occupied w => exact ⟨w, rfl⟩

theorem shapeEq_upd_occ {A B : Type} {s1 : Stash A} {s2 : Stash B} (h : ∀ i,
    (s1.entries i).map StashEntry.shape = (s2.entries i).map StashEntry.shape)
    (j : Nat) (a : A) (b : B) : ∀ i,
    ((upd s1.entries j (some (.occupied a))) i).map StashEntry.shape =
    ((upd s2.entries j (some (.occupied b))) i).map StashEntry.shape := by
  intro i
  by_cases hij : i = j
  · simp [upd, hij, StashEntry.shape]
  · simp [upd, hij, h i]

/-- `Stash::put` is a shape-preserving simulation: on shape-equal stashes it
fails on both or succeeds on both with the same returned index and
shape-equal results, whatever the two inserted values are. -/
theorem put_shape {A B : Type} {s1 : Stash A} {s2 : Stash B} (h : ShapeEq s1 s2)
    (a : A) (b : B) :
    (Stash.put a s1 = none ∧ Stash.put b s2 = none) ∨
    ∃ i t1 t2, Stash.put a s1 = some (i, t1) ∧ Stash.put b s2 = some (i, t2) ∧ ShapeEq t1 t2 := by
  obtain ⟨hnv, hlen, hml, hent⟩ := h
  by_cases hc : s1.next_vacant = s1.len
  · have hc2 : s2.next_vacant = s2.len := by rw [← hnv, ← hlen]; exact hc
    right
    refine ⟨s1.next_vacant,
      { next_vacant := (s1.next_vacant + 1) % u32Mod
        len := (s1.len + 1) % u32Mod
        max_len := (s1.max_len + 1) % u32Mod
        entries := upd s1.entries s1.next_vacant (some (.occupied a)) },
      { next_vacant := (s2.next_vacant + 1) % u32Mod
        len := (s2.len + 1) % u32Mod
        max_len := (s2.max_len + 1) % u32Mod
        entries := upd s2.entries s2.next_vacant (some (.occupied b)) },
      ?_, ?_, ?_⟩
    · simp [Stash.put, hc]
    · have h12 : s1.next_vacant = s2.len := hnv.trans hc2
      simp [Stash.put, h12, ← hnv]
    · exact ⟨by simp [hnv], by simp [hlen], by simp [hml],
        by rw [← hnv]; exact shapeEq_upd_occ hent _ a b⟩
  · have hc2 : ¬ s2.next_vacant = s2.len := by rw [← hnv, ← hlen]; exact hc
    cases he1 : s1.entries s1.next_vacant with
    | none =>
      have he2 : s2.entries s2.next_vacant = none := by
        rw [← hnv]; exact map_shape_none (hent s1.next_vacant) he1
      left
      constructor
      · simp [Stash.put, hc, he1]
      · simp [Stash.put, hc2, he2]
    | some e =>
      cases e with
      | vacant p =>
        have he2 : s2.entries s2.next_vacant = some (.vacant p) := by
          rw [← hnv]; exact map_shape_vacant (hent s1.next_vacant) he1
        right
        refine ⟨s1.next_vacant,
          { next_vacant := p
            len := (s1.len + 1) % u32Mod
            max_len := s1.max_len
            entries := upd s1.entries s1.next_vacant (some (.occupied a)) },
          { next_vacant := p
            len := (s2.len + 1) % u32Mod
            max_len := s2.max_len
            entries := upd s2.entries s2.next_vacant (some (.occupied b)) },
          ?_, ?_, ?_⟩
        · simp [Stash.put, hc, he1]
        · have h12 : ¬ s1.next_vacant = s2.len := by rw [hnv]; exact hc2
          have he2' : s2.entries s1.next_vacant = some (.vacant p) := by
            rw [hnv]; exact he2
          simp [Stash.put, h12, ← hnv, he2']
        · exact ⟨rfl, by simp [hlen], hml, by rw [← hnv]; exact shapeEq_upd_occ hent _ a b⟩
      | occupied v =>
        obtain ⟨w, he2⟩ : ∃ w, s2.entries s2.next_vacant = some (.occupied w) := by
          rw [← hnv]; exact map_shape_occupied (hent s1.next_vacant) he1
        left
        constructor
        · simp [Stash.put, hc, he1]
        · simp [Stash.put, hc2, he2]

/-- `Stash::take` is a shape-preserving simulation: on shape-equal stashes it
succeeds on both or fails on both and leaves shape-equal results. -/
theorem take_shape {A B : Type} {s1 : Stash A} {s2 : Stash B} (h : ShapeEq s1 s2)
    (n : Nat) :
    (Stash.take n s1).1.isSome = (Stash.take n s2).1.isSome ∧
    ShapeEq (Stash.take n s1).2 (Stash.take n s2).2 := by
  obtain ⟨hnv, hlen, hml, hent⟩ := h
  cases he1 : s1.entries n with
  | none =>
    have he2 : s2.entries n = none := map_shape_none (hent n) he1
    exact ⟨by simp [Stash.take, he1, he2], by
      simp only [Stash.take, he1, he2]
      exact ⟨hnv, hlen, hml, hent⟩⟩
  | some e =>
    cases e with
    | vacant p =>
      have he2 : s2.entries n = some (.vacant p) := map_shape_vacant (hent n) he1
      exact ⟨by simp [Stash.take, he1, he2], by
        simp only [Stash.take, he1, he2]
        exact ⟨hnv, hlen, hml, hent⟩⟩
    | occupied v =>
      obtain ⟨w, he2⟩ := map_shape_occupied (hent n) he1
      refine ⟨by simp [Stash.take, he1, he2], ?_⟩
      simp only [Stash.take, he1, he2]
      refine ⟨rfl, by simp [hlen], hml, ?_⟩
      intro i
      by_cases hin : i = n
      · simp [upd, hin, StashEntry.shape, hnv]
      · simp [upd, hin, hent i]

/-- One operation of a stash run: a `put` (its value is supplied separately
by a value stream) or a `take` at a given index. -/
inductive StashOp where
  | put
  | take (n : Nat)

/-- Run a list of stash operations from a state, feeding `put`s from the
value stream `vals` (the `k`-th executed `put` receives `vals k`).  Returns
the list of indices assigned by the `put`s and the final state, or `none`
if some `put` hit one of its failure branches. -/
def runOps {A : Type} (vals : Nat → A) : List StashOp → Nat → Stash A → Option (List Nat × Stash A)
  | [], _, s => some ([], s)
  | .put :: rest, k, s =>
    match Stash.put (vals k) s with
    | none => none
    | some (i, s') => (runOps vals rest (k + 1) s').map (fun p => (i :: p.1, p.2))
  | .take n :: rest, k, s => runOps vals rest k (Stash.take n s).2

theorem run_shape {A B : Type} (ops : List StashOp) :
    ∀ (v1 : Nat → A) (v2 : Nat → B) (k1 k2 : Nat) (s1 : Stash A) (s2 : Stash B),
    ShapeEq s1 s2 →
    (runOps v1 ops k1 s1).map Prod.fst = (runOps v2 ops k2 s2).map Prod.fst := by
  induction ops with
  | nil => intro v1 v2 k1 k2 s1 s2 _; simp [runOps]
  | cons op rest ih =>
    intro v1 v2 k1 k2 s1 s2 h
    cases op with
    | put =>
      rcases put_shape h (v1 k1) (v2 k2) with ⟨h1, h2⟩ | ⟨i, t1, t2, h1, h2, hsh⟩
      · simp [runOps, h1, h2]
      · simp only [runOps, h1, h2]
        have hrec := ih v1 v2 (k1 + 1) (k2 + 1) t1 t2 hsh
        cases e1 : runOps v1 rest (k1 + 1) t1 with
        | none =>
          rw [e1] at hrec
          cases e2 : runOps v2 rest (k2 + 1) t2 with
          | none => simp
          | some p2 => rw [e2] at hrec; simp at hrec
        | some p1 =>
          rw [e1] at hrec
          cases e2 : runOps v2 rest (k2 + 1) t2 with
          | none => rw [e2] at hrec; simp at hrec
          | some p2 =>
            rw [e2] at hrec
            simp at hrec
            simp [hrec]
    | take n =>
      simp only [runOps]
      exact ih v1 v2 k1 k2 _ _ (take_shape h n).2

/-- C6: index assignment is a function of operation history only.  Two
stashes, both starting empty and fed the identical ordered list of
`put`/`take` operations, assign identical indices at every step, for any
two value streams over any two value types. -/
theorem c6_index_assignment_value_independent {A B : Type}
    (ops : List StashOp) (v1 : Nat → A) (v2 : Nat → B) :
    (runOps v1 ops 0 Stash.empty).map Prod.fst =
    (runOps v2 ops 0 Stash.empty).map Prod.fst :=
  run_shape ops v1 v2 0 0 Stash.empty Stash.empty
    ⟨rfl, rfl, rfl, fun _ => rfl⟩

/-- Stash states reachable from the fresh stash by `put` and `take`. -/
inductive Reachable {V : Type} : Stash V → Prop where
  | empty : Reachable Stash.empty
  | put {s : Stash V} {v : V} {i : Nat} {s' : Stash V} :
      Reachable s → Stash.put v s = some (i, s') → Reachable s'
  | take {s : Stash V} (n : Nat) : Reachable s → Reachable (Stash.take n s).2

/-- The free-list structure that `put` relies on.  `Chain e nv l xs` walks
the list `xs` of slots starting at head `nv` while the length counter reads
`l`: either the head equals the length counter (then `put` appends and the
rest of the list is irrelevant), or the head is a vacant slot whose pointer
continues the walk against the length counter a pop later, i.e. `(l+1) % 2^32`.
The walk never revisits a slot. -/
inductive Chain {V : Type} (e : Nat → Option (StashEntry V)) : Nat → Nat → List Nat → Prop where
  | nil (l : Nat) : Chain e l l []
  | cons (x l p : Nat) (rest : List Nat) (hne : x ≠ l)
      (hx : e x = some (.vacant p)) (htail : Chain e p ((l + 1) % u32Mod) rest)
      (hmem : x ∉ rest) : Chain e x l (x :: rest)

/-- The inductive invariant of reachable stashes: all counters and stored
free-list pointers are `u32` values, nothing beyond the `u32` index space is
ever written, and the free list starting at `next_vacant` is a valid chain. -/
def StashInv {V : Type} (s : Stash V) : Prop :=
  s.len < u32Mod ∧ s.next_vacant < u32Mod ∧
  (∀ i q, s.entries i = some (.vacant q) → q < u32Mod) ∧
  (∀ i, u32Mod ≤ i → s.entries i = none) ∧
  ∃ xs, Chain s.entries s.next_vacant s.len xs

theorem chain_mem_vacant {V : Type} {e : Nat → Option (StashEntry V)} :
    ∀ {nv l : Nat} {xs : List Nat}, Chain e nv l xs →
    ∀ i, i ∈ xs → ∃ q, e i = some (.vacant q) := by
  intro nv l xs h
  induction h with
  | nil l => intro i hi; simp at hi
  | cons x l p rest hne hx htail hmem ih =>
    intro i hi
    rcases List.mem_cons.mp hi with rfl | hi'
    · exact ⟨p, hx⟩
    · exact ih i hi'

theorem chain_upd {V : Type} {e : Nat → Option (StashEntry V)}
    {j : Nat} {v : Option (StashEntry V)} :
    ∀ {nv l : Nat} {xs : List Nat}, Chain e nv l xs → j ∉ xs →
    Chain (upd e j v) nv l xs := by
  intro nv l xs h
  induction h with
  | nil l => intro _; exact Chain.nil l
  | cons x l p rest hne hx htail hmem ih =>
    intro hj
    have hxj : x ≠ j := fun hh => hj (hh ▸ List.mem_cons_self x rest)
    have hjr : j ∉ rest := fun hh => hj (List.mem_cons_of_mem _ hh)
    exact Chain.cons x l p rest hne (by rw [upd_ne _ _ _ _ hxj]; exact hx)
      (ih hjr) hmem

theorem chain_head_vacant {V : Type} {e : Nat → Option (StashEntry V)}
    {nv l : Nat} {xs : List Nat} (h : Chain e nv l xs) (hne : nv ≠ l) :
    ∃ p rest, xs = nv :: rest ∧ e nv = some (.vacant p) ∧
      Chain e p ((l + 1) % u32Mod) rest ∧ nv ∉ rest := by
  cases h with
  | nil l => exact absurd rfl hne
  | cons x l p rest hne2 hx htail hmem => exact ⟨p, rest, rfl, hx, htail, hmem⟩

theorem inv_empty {V : Type} : StashInv (Stash.empty : Stash V) := by
  refine ⟨u32Mod_pos, u32Mod_pos, ?_, ?_, ⟨[], Chain.nil 0⟩⟩
  · intro i q h
    exact absurd h (by simp [Stash.empty])
  · intro i _
    rfl

theorem inv_put {V : Type} {s : Stash V} {v : V} {i : Nat} {s' : Stash V}
    (hinv : StashInv s) (hp : Stash.put v s = some (i, s')) : StashInv s' := by
  obtain ⟨hlen, hnv, hP, hQ, xs, hchain⟩ := hinv
  unfold Stash.put at hp
  by_cases hc : s.next_vacant = s.len
  · rw [if_pos hc] at hp
    simp only [Option.some.injEq, Prod.mk.injEq] at hp
    obtain ⟨-, hs'⟩ := hp
    subst hs'
    unfold StashInv
    dsimp only
    refine ⟨Nat.mod_lt _ u32Mod_pos, Nat.mod_lt _ u32Mod_pos, ?_, ?_, ⟨[], ?_⟩⟩
    · intro j q hj
      by_cases hjn : j = s.next_vacant
      · rw [hjn, upd_self] at hj; exact absurd hj (by simp)
      · rw [upd_ne _ _ _ _ hjn] at hj; exact hP j q hj
    · intro j hj
      have hjn : j ≠ s.next_vacant := by omega
      rw [upd_ne _ _ _ _ hjn]; exact hQ j hj
    · rw [hc]
      exact Chain.nil _
  · rw [if_neg hc] at hp
    obtain ⟨p, rest, hxs, he, htail, hmem⟩ := chain_head_vacant hchain hc
    rw [he] at hp
    simp only [Option.some.injEq, Prod.mk.injEq] at hp
    obtain ⟨-, hs'⟩ := hp
    subst hs'
    unfold StashInv
    dsimp only
    refine ⟨Nat.mod_lt _ u32Mod_pos, hP _ _ he, ?_, ?_, ⟨rest, ?_⟩⟩
    · intro j q hj
      by_cases hjn : j = s.next_vacant
      · rw [hjn, upd_self] at hj; exact absurd hj (by simp)
      · rw [upd_ne _ _ _ _ hjn] at hj; exact hP j q hj
    · intro j hj
      have hjn : j ≠ s.next_vacant := by omega
      rw [upd_ne _ _ _ _ hjn]; exact hQ j hj
    · exact chain_upd htail hmem

theorem inv_take {V : Type} {s : Stash V} (hinv : StashInv s) (n : Nat) :
    StashInv (Stash.take n s).2 := by
  obtain ⟨hlen, hnv, hP, hQ, xs, hchain⟩ := hinv
  cases he : s.entries n with
  | none =>
    simp only [Stash.take, he]
    exact ⟨hlen, hnv, hP, hQ, xs, hchain⟩
  | some entry =>
    cases entry with
    | vacant p =>
      simp only [Stash.take, he]
      exact ⟨hlen, hnv, hP, hQ, xs, hchain⟩
    | occupied v =>
      simp only [Stash.take, he]
      have hnW : n < u32Mod := by
        by_contra hge
        rw [hQ n (by omega)] at he
        exact absurd he (by simp)
      have hnotmem : n ∉ xs := by
        intro hm
        obtain ⟨q, hq⟩ := chain_mem_vacant hchain n hm
        rw [he] at hq
        exact absurd hq (by simp)
      unfold StashInv
      dsimp only
      refine ⟨Nat.mod_lt _ u32Mod_pos, hnW, ?_, ?_, ?_⟩
      · intro j q hj
        by_cases hjn : j = n
        · rw [hjn, upd_self] at hj
          simp only [Option.some.injEq, StashEntry.vacant.injEq] at hj
          rw [← hj]; exact hnv
        · rw [upd_ne _ _ _ _ hjn] at hj; exact hP j q hj
      · intro j hj
        have hjn : j ≠ n := by omega
        rw [upd_ne _ _ _ _ hjn]; exact hQ j hj
      · by_cases hnl : n = (s.len + (u32Mod - 1)) % u32Mod
        · exact ⟨[], by rw [hnl]; exact Chain.nil _⟩
        · refine ⟨n :: xs, Chain.cons n _ s.next_vacant xs hnl (upd_self _ _ _) ?_ hnotmem⟩
          have harith : ((s.len + (u32Mod - 1)) % u32Mod + 1) % u32Mod = s.len := by
            unfold u32Mod at hlen ⊢
            omega
          rw [harith]
          exact chain_upd hchain hnotmem

theorem inv_reach {V : Type} {s : Stash V} (h : Reachable s) : StashInv s := by
  induction h with
  | empty => exact inv_empty
  | put _ hp ih => exact inv_put ih hp
  | take n _ ih => exact inv_take ih n

/-- C8: on every reachable stash, whenever `next_vacant != len` the slot at
`next_vacant` exists and is `Vacant`, hence `put` never reaches its
`expect("expected a vacant entry here")` or
`unreachable!("a next_vacant index can never point to an occupied entry")`
failure branches (modelled as result `none`). -/
theorem c8_put_failure_branches_unreachable {V : Type} (s : Stash V)
    (h : Reachable s) :
    (s.next_vacant ≠ s.len → ∃ p, s.entries s.next_vacant = some (.vacant p)) ∧
    ∀ v, Stash.put v s ≠ none := by
  obtain ⟨hlen, hnv, hP, hQ, xs, hchain⟩ := inv_reach h
  have hvac : s.next_vacant ≠ s.len → ∃ p, s.entries s.next_vacant = some (.vacant p) := by
    intro hne
    obtain ⟨p, rest, -, hx, -, -⟩ := chain_head_vacant hchain hne
    exact ⟨p, hx⟩
  refine ⟨hvac, ?_⟩
  intro v
  unfold Stash.put
  by_cases hc : s.next_vacant = s.len
  · rw [if_pos hc]; simp
  · rw [if_neg hc]
    obtain ⟨p, hp⟩ := hvac hc
    rw [hp]
    simp

/-- Witness for C8: the state after `put 10; put 20; take 0` on a fresh
stash is reachable and has `next_vacant = 0 ≠ 1 = len`; the theorem yields
the vacant entry at the free-list head and that `put` cannot fail there. -/
theorem c8_put_failure_branches_unreachable_witness :
    (∃ p, c9s3.entries c9s3.next_vacant = some (StashEntry.vacant p)) ∧
    ∀ v : Nat, Stash.put v c9s3 ≠ none :=
  ⟨(c8_put_failure_branches_unreachable c9s3
      (Reachable.take 0 (Reachable.put (Reachable.put Reachable.empty rfl) rfl))).1
    (by decide),
   (c8_put_failure_branches_unreachable c9s3
      (Reachable.take 0 (Reachable.put (Reachable.put Reachable.empty rfl) rfl))).2⟩

/-- An entry of the storage map (`enum Entry<K,V>` with `OccupiedEntry` in
`storage_map.rs`): an occupied slot holding a key and a value, or a removed
slot (tombstone).  A never-written slot has no stored entry at all and is
modelled as `none` at the chunk level. -/
inductive MapEntry (K V : Type) where
  | occupied (key : K) (val : V)
  | removed
deriving DecidableEq

/-- The storage map (`struct StorageMap<K,V>`): the `len` counter cell and
the entries chunk.  Modelled from the spec: the `Synced<u32>` length cell is
not in the excerpt; a fresh map reads length `0` (fresh regions are empty). -/
structure StorageMap (K V : Type) where
  len : Nat
  entries : Nat → Option (MapEntry K V)

/-- `bytes_to_u32` from `storage_map.rs`: assembles four bytes into a `u32`
by shifting and or-ing, the first byte into the most significant position. -/
def bytes_to_u32 (b0 b1 b2 b3 : Nat) : Nat :=
  (((0 ||| (b0 <<< 24)) ||| (b1 <<< 16)) ||| (b2 <<< 8)) ||| (b3 <<< 0)

namespace StorageMap

/-- A fresh storage map. -/
def empty {K V : Type} : StorageMap K V := { len := 0, entries := fun _ => none }

/-- The loop of `StorageMap::probe`, with an explicit fuel bound on the
number of executed loop iterations; result `none` means the fuel was
exhausted, so a diverging walk yields `none` for every fuel.  `hops` is
`probe_hops`; the visited index is
`probe_start.wrapping_add(probe_hops * probe_hops)`.  On an occupied slot
with a non-matching key the walk continues with `hops + 1`; on a `Removed`
or never-written slot it stops with `(false, index)` when `inserting`, and
otherwise continues WITHOUT advancing `hops` — exactly as in the source,
where that branch does not update `probe_offset`. -/
def probeAux {K V : Type} [DecidableEq K] (e : Nat → Option (MapEntry K V))
    (key : K) (start : Nat) (inserting : Bool) : Nat → Nat → Option (Bool × Nat)
  | 0, _ => none
  | fuel + 1, hops =>
    match e ((start + hops * hops) % u32Mod) with
    | some (.occupied k2 _) =>
      if k2 = key then some (true, (start + hops * hops) % u32Mod)
      else probeAux e key start inserting fuel (hops + 1)
    | some .removed =>
      if inserting then some (false, (start + hops * hops) % u32Mod)
      else probeAux e key start inserting fuel hops
    | none =>
      if inserting then some (false, (start + hops * hops) % u32Mod)
      else probeAux e key start inserting fuel hops

/-- `StorageMap::probe`: starts at `probe_start`, the `u32` hash of the key.
The hash is a parameter `h`; in the source it is `bytes_to_u32` of the first
four keccak-256 bytes of the key (keccak-256 itself is not in the excerpt). -/
def probe {K V : Type} [DecidableEq K] (h : K → Nat) (m : StorageMap K V)
    (key : K) (inserting : Bool) (fuel : Nat) : Option (Bool × Nat) :=
  probeAux m.entries key (h key % u32Mod) inserting fuel 0

/-- `StorageMap::insert`.  On a key match the old entry is removed and
replaced, returning the old value; on a free slot a fresh occupied entry is
written, returning `None`.  The `len` counter is never touched, as in the
source.  The outer `none` covers probe-fuel exhaustion and the
`old.unwrap()` panic on a missing old entry in the match branch. -/
def insert {K V : Type} [DecidableEq K] (h : K → Nat) (key : K) (val : V)
    (fuel : Nat) (m : StorageMap K V) : Option (Option V × StorageMap K V) :=
  match probe h m key true fuel with
  | none => none
  | some (true, p) =>
    match m.entries p with
    | some (.occupied _ oldVal) =>
      some (some oldVal,
        { len := m.len, entries := upd m.entries p (some (.occupied key val)) })
    | some .removed =>
      some (none,
        { len := m.len, entries := upd m.entries p (some (.occupied key val)) })
    | none => none
  | some (false, p) =>
    some (none,
      { len := m.len, entries := upd m.entries p (some (.occupied key val)) })

/-- `StorageMap::remove`: probes with `inserting = false`, removes the chunk
entry at the probed index and returns its value if it was occupied.  The
`len` counter is never touched, as in the source. -/
def remove {K V : Type} [DecidableEq K] (h : K → Nat) (key : K)
    (fuel : Nat) (m : StorageMap K V) : Option (Option V × StorageMap K V) :=
  match probe h m key false fuel with
  | none => none
  | some (_, p) =>
    some ((match m.entries p with
           | some (.occupied _ oldVal) => some oldVal
           | some .removed => none
           | none => none),
      { len := m.len, entries := upd m.entries p none })

/-- `StorageMap::get`: probes with `inserting = false` and returns the value
of the entry at the probed index if it is occupied. -/
def get {K V : Type} [DecidableEq K] (h : K → Nat) (key : K)
    (fuel : Nat) (m : StorageMap K V) : Option (Option V) :=
  match probe h m key false fuel with
  | none => none
  | some (_, p) =>
    some (match m.entries p with
          | some (.occupied _ v) => some v
          | some .removed => none
          | none => none)

/-- `insert` with a default, for naming intermediate states of concrete runs. -/
def insertD {K V : Type} [DecidableEq K] (h : K → Nat) (key : K) (val : V)
    (fuel : Nat) (m : StorageMap K V) : Option V × StorageMap K V :=
  (insert h key val fuel m).getD (none, m)

/-- `remove` with a default, for naming intermediate states of concrete runs. -/
def removeD {K V : Type} [DecidableEq K] (h : K → Nat) (key : K)
    (fuel : Nat) (m : StorageMap K V) : Option V × StorageMap K V :=
  (remove h key fuel m).getD (none, m)

end StorageMap

/-- A hash function sending every key to probe start `0`, so that all keys
collide (used for the concrete map runs). -/
def hzero : Nat → Nat := fun _ => 0

/- Concrete run used by the C1 analysis: insert key 1 into a fresh map,
then remove it again. -/

def c1m1 : StorageMap Nat Nat := (StorageMap.insertD hzero 1 10 1 StorageMap.empty).2

def c1m2 : StorageMap Nat Nat := (StorageMap.removeD hzero 1 1 c1m1).2

/-- C1, failing input: inserting a fresh key into an empty map leaves
`len() = 0` although the map now holds one occupied entry, and the
subsequent successful removal also leaves `len() = 0`: `insert` and
`remove` never update the length counter, so `len()` does not equal the
number of occupied entries and is not incremented by a fresh insert. -/
theorem c1_len_never_updated :
    (StorageMap.insert hzero 1 10 1 (StorageMap.empty : StorageMap Nat Nat)).map Prod.fst
      = some none ∧
    c1m1.entries 0 = some (MapEntry.occupied 1 10) ∧
    c1m1.len = 0 ∧
    (StorageMap.remove hzero 1 1 c1m1).map Prod.fst = some (some 10) ∧
    c1m2.entries 0 = none ∧
    c1m2.len = 0 := by
  decide

theorem probeAux_stuck {K V : Type} [DecidableEq K]
    {e : Nat → Option (MapEntry K V)} {key : K} {start hops : Nat}
    (hfree : e ((start + hops * hops) % u32Mod) = none ∨
             e ((start + hops * hops) % u32Mod) = some .removed) :
    ∀ fuel, StorageMap.probeAux e key start false fuel hops = none := by
  intro fuel
  induction fuel with
  | zero => rfl
  | succ n ih =>
    rcases hfree with h | h
    · simp only [StorageMap.probeAux, h]
      exact ih
    · simp only [StorageMap.probeAux, h]
      exact ih

/- Concrete run used by the C2 analysis: keys 1 and 2 share probe start 0;
insert both, then remove key 1, leaving a hole on key 2's probe path. -/

def c2mA : StorageMap Nat Nat := (StorageMap.insertD hzero 1 10 1 StorageMap.empty).2

def c2mB : StorageMap Nat Nat := (StorageMap.insertD hzero 2 20 2 c2mA).2

def c2mC : StorageMap Nat Nat := (StorageMap.removeD hzero 1 1 c2mB).2

/-- C2, failing input: with colliding keys 1 and 2, after
`insert 1; insert 2; remove 1` the map still holds key 2 at index 1, past
the hole left at index 0 by the removal — yet `get 2` never terminates
(it returns fuel-exhaustion `none` for EVERY fuel), because the
lookup/removal probe does not advance the probe index on a `Removed` or
never-written slot; it re-reads the same slot forever.  Likewise `get` and
`remove` of an absent key on the empty map never return.  The claim says
these return `None` after passing over the hole to the next probe index. -/
theorem c2_lookup_stuck_at_hole :
    (StorageMap.insert hzero 1 10 1 (StorageMap.empty : StorageMap Nat Nat)).map Prod.fst
      = some none ∧
    (StorageMap.insert hzero 2 20 2 c2mA).map Prod.fst = some none ∧
    (StorageMap.remove hzero 1 1 c2mB).map Prod.fst = some (some 10) ∧
    c2mC.entries 1 = some (MapEntry.occupied 2 20) ∧
    c2mC.entries 0 = none ∧
    (∀ fuel, StorageMap.get hzero 2 fuel c2mC = none) ∧
    (∀ fuel, StorageMap.get hzero 5 fuel (StorageMap.empty : StorageMap Nat Nat) = none) ∧
    (∀ fuel, StorageMap.remove hzero 5 fuel (StorageMap.empty : StorageMap Nat Nat) = none) := by
  refine ⟨by decide, by decide, by decide, by decide, by decide, ?_, ?_, ?_⟩
  · intro fuel
    have hst : StorageMap.probe hzero c2mC 2 false fuel = none :=
      probeAux_stuck (Or.inl (by decide)) fuel
    simp [StorageMap.get, hst]
  · intro fuel
    have hst : StorageMap.probe hzero (StorageMap.empty : StorageMap Nat Nat) 5 false fuel = none :=
      probeAux_stuck (Or.inl rfl) fuel
    simp [StorageMap.get, hst]
  · intro fuel
    have hst : StorageMap.probe hzero (StorageMap.empty : StorageMap Nat Nat) 5 false fuel = none :=
      probeAux_stuck (Or.inl rfl) fuel
    simp [StorageMap.remove, hst]

theorem probeAux_insert_stop {K V : Type} [DecidableEq K]
    {e : Nat → Option (MapEntry K V)} {key : K} {start : Nat} :
    ∀ {fuel hops : Nat} {b : Bool} {p : Nat},
    StorageMap.probeAux e key start true fuel hops = some (b, p) →
    (b = true ∧ ∃ v, e p = some (.occupied key v)) ∨
    (b = false ∧ (e p = some .removed ∨ e p = none)) := by
  intro fuel
  induction fuel with
  | zero =>
    intro hops b p h
    exact absurd h (by simp [StorageMap.probeAux])
  | succ n ih =>
    intro hops b p h
    cases he : e ((start + hops * hops) % u32Mod) with
    | none =>
      simp only [StorageMap.probeAux, he, if_true] at h
      simp only [Option.some.injEq, Prod.mk.injEq] at h
      obtain ⟨hb, hp⟩ := h
      subst hb
      subst hp
      exact Or.inr ⟨rfl, Or.inr he⟩
    | some entry =>
      cases entry with
      | removed =>
        simp only [StorageMap.probeAux, he, if_true] at h
        simp only [Option.some.injEq, Prod.mk.injEq] at h
        obtain ⟨hb, hp⟩ := h
        subst hb
        subst hp
        exact Or.inr ⟨rfl, Or.inl he⟩
      | occupied k2 v =>
        by_cases hk : k2 = key
        · simp only [StorageMap.probeAux, he, if_pos hk] at h
          simp only [Option.some.injEq, Prod.mk.injEq] at h
          obtain ⟨hb, hp⟩ := h
          subst hb
          subst hp
          rw [hk] at he
          exact Or.inl ⟨rfl, v, he⟩
        · simp only [StorageMap.probeAux, he, if_neg hk] at h
          exact ih h

theorem probeAux_congr {K V : Type} [DecidableEq K]
    {e1 e2 : Nat → Option (MapEntry K V)} (hagree : ∀ i, e1 i = e2 i)
    (key : K) (start : Nat) (inserting : Bool) :
    ∀ (fuel hops : Nat),
    StorageMap.probeAux e1 key start inserting fuel hops =
    StorageMap.probeAux e2 key start inserting fuel hops := by
  intro fuel
  induction fuel with
  | zero => intro hops; rfl
  | succ n ih =>
    intro hops
    simp only [StorageMap.probeAux]
    rw [hagree ((start + hops * hops) % u32Mod)]
    cases he : e2 ((start + hops * hops) % u32Mod) with
    | none => simp [ih]
    | some entry => cases entry <;> simp [ih]

theorem upd_upd {α : Type} (e : Nat → Option α) (i : Nat) (a b : Option α) :
    ∀ j, upd (upd e i a) i b j = upd e i b j := by
  intro j
  by_cases hj : j = i <;> simp [upd, hj]

theorem probeAux_retrace {K V : Type} [DecidableEq K]
    {e : Nat → Option (MapEntry K V)} {key : K} {start : Nat} (w : V) (flag : Bool) :
    ∀ {fuel hops : Nat} {b : Bool} {p : Nat},
    StorageMap.probeAux e key start true fuel hops = some (b, p) →
    StorageMap.probeAux (upd e p (some (.occupied key w))) key start flag fuel hops
      = some (true, p) := by
  intro fuel
  induction fuel with
  | zero =>
    intro hops b p h
    exact absurd h (by simp [StorageMap.probeAux])
  | succ n ih =>
    intro hops b p h
    cases he : e ((start + hops * hops) % u32Mod) with
    | none =>
      simp only [StorageMap.probeAux, he, if_true] at h
      simp only [Option.some.injEq, Prod.mk.injEq] at h
      obtain ⟨hb, hp⟩ := h
      subst hp
      simp [StorageMap.probeAux, upd_self]
    | some entry =>
      cases entry with
      | removed =>
        simp only [StorageMap.probeAux, he, if_true] at h
        simp only [Option.some.injEq, Prod.mk.injEq] at h
        obtain ⟨hb, hp⟩ := h
        subst hp
        simp [StorageMap.probeAux, upd_self]
      | occupied k2 v =>
        by_cases hk : k2 = key
        · simp only [StorageMap.probeAux, he, if_pos hk] at h
          simp only [Option.some.injEq, Prod.mk.injEq] at h
          obtain ⟨hb, hp⟩ := h
          subst hp
          simp [StorageMap.probeAux, upd_self]
        · simp only [StorageMap.probeAux, he, if_neg hk] at h
          have hne : (start + hops * hops) % u32Mod ≠ p := by
            intro hceq
            rcases probeAux_insert_stop h with ⟨-, v2, hv⟩ | ⟨-, hv | hv⟩
            · rw [← hceq, he] at hv
              simp only [Option.some.injEq, MapEntry.occupied.injEq] at hv
              exact hk hv.1
            · rw [← hceq, he] at hv
              exact absurd hv (by simp)
            · rw [← hceq, he] at hv
              exact absurd hv (by simp)
          have hupd : upd e p (some (MapEntry.occupied key w)) ((start + hops * hops) % u32Mod)
              = some (MapEntry.occupied k2 v) := by
            rw [upd_ne _ _ _ _ hne]; exact he
          simp only [StorageMap.probeAux, hupd, if_neg hk]
          exact ih h

theorem probeAux_retrace_cleared {K V : Type} [DecidableEq K]
    {e : Nat → Option (MapEntry K V)} {key : K} {start : Nat} :
    ∀ {fuel hops : Nat} {b : Bool} {p : Nat},
    StorageMap.probeAux e key start true fuel hops = some (b, p) →
    StorageMap.probeAux (upd e p none) key start true fuel hops = some (false, p) := by
  intro fuel
  induction fuel with
  | zero =>
    intro hops b p h
    exact absurd h (by simp [StorageMap.probeAux])
  | succ n ih =>
    intro hops b p h
    cases he : e ((start + hops * hops) % u32Mod) with
    | none =>
      simp only [StorageMap.probeAux, he, if_true] at h
      simp only [Option.some.injEq, Prod.mk.injEq] at h
      obtain ⟨hb, hp⟩ := h
      subst hp
      simp [StorageMap.probeAux, upd_self]
    | some entry =>
      cases entry with
      | removed =>
        simp only [StorageMap.probeAux, he, if_true] at h
        simp only [Option.some.injEq, Prod.mk.injEq] at h
        obtain ⟨hb, hp⟩ := h
        subst hp
        simp [StorageMap.probeAux, upd_self]
      | occupied k2 v =>
        by_cases hk : k2 = key
        · simp only [StorageMap.probeAux, he, if_pos hk] at h
          simp only [Option.some.injEq, Prod.mk.injEq] at h
          obtain ⟨hb, hp⟩ := h
          subst hp
          simp [StorageMap.probeAux, upd_self]
        · simp only [StorageMap.probeAux, he, if_neg hk] at h
          have hne : (start + hops * hops) % u32Mod ≠ p := by
            intro hceq
            rcases probeAux_insert_stop h with ⟨-, v2, hv⟩ | ⟨-, hv | hv⟩
            · rw [← hceq, he] at hv
              simp only [Option.some.injEq, MapEntry.occupied.injEq] at hv
              exact hk hv.1
            · rw [← hceq, he] at hv
              exact absurd hv (by simp)
            · rw [← hceq, he] at hv
              exact absurd hv (by simp)
          have hupd : upd e p none ((start + hops * hops) % u32Mod)
              = some (MapEntry.occupied k2 v) := by
            rw [upd_ne _ _ _ _ hne]; exact he
          simp only [StorageMap.probeAux, hupd, if_neg hk]
          exact ih h

/-- C3: for any map, key and hash function, whenever the insert probe
terminates: after `insert key v1`, `get key` returns `Some v1`; a second
`insert key v2` returns the previous value `Some v1`, leaves `get key` at
`Some v2` and leaves `len()` unchanged; and after `remove key`, re-inserting
`key` succeeds (returns `None`, not blocked by the hole the removal left)
and `get key` then returns `Some v2`. -/
theorem c3_insert_get_overwrite_reinsert {K V : Type} [DecidableEq K]
    (h : K → Nat) (m : StorageMap K V) (key : K) (v1 v2 : V) (fuel : Nat)
    (r1 : Option V) (m1 : StorageMap K V)
    (hins : StorageMap.insert h key v1 fuel m = some (r1, m1)) :
    StorageMap.get h key fuel m1 = some (some v1) ∧
    m1.len = m.len ∧
    (∃ m2, StorageMap.insert h key v2 fuel m1 = some (some v1, m2) ∧
      StorageMap.get h key fuel m2 = some (some v2) ∧ m2.len = m.len) ∧
    (∃ mr, StorageMap.remove h key fuel m1 = some (some v1, mr) ∧ mr.len = m.len ∧
      ∃ m3, StorageMap.insert h key v2 fuel mr = some (none, m3) ∧
        StorageMap.get h key fuel m3 = some (some v2) ∧ m3.len = m.len) := by
  obtain ⟨bb, pp, hpp, hm1⟩ :
      ∃ bb pp, StorageMap.probe h m key true fuel = some (bb, pp) ∧
        m1 = { len := m.len,
               entries := upd m.entries pp (some (.occupied key v1)) } := by
    unfold StorageMap.insert at hins
    cases hpr : StorageMap.probe h m key true fuel with
    | none => rw [hpr] at hins; simp at hins
    | some bp =>
      obtain ⟨bb, pp⟩ := bp
      rw [hpr] at hins
      refine ⟨bb, pp, rfl, ?_⟩
      cases bb with
      | false =>
        simp only [Option.some.injEq, Prod.mk.injEq] at hins
        exact hins.2.symm
      | true =>
        dsimp only at hins
        cases hep : m.entries pp with
        | none => rw [hep] at hins; simp at hins
        | some entry =>
          cases entry with
          | occupied k3 v3 =>
            rw [hep] at hins
            simp only [Option.some.injEq, Prod.mk.injEq] at hins
            exact hins.2.symm
          | removed =>
            rw [hep] at hins
            simp only [Option.some.injEq, Prod.mk.injEq] at hins
            exact hins.2.symm
  subst hm1
  have hax : StorageMap.probeAux m.entries key (h key % u32Mod) true fuel 0
      = some (bb, pp) := hpp
  refine ⟨?_, rfl, ?_, ?_⟩
  · have hg := probeAux_retrace v1 false hax
    simp only [StorageMap.get, StorageMap.probe, hg, upd_self]
  · have hpi := probeAux_retrace v1 true hax
    refine ⟨{ len := m.len,
              entries := upd (upd m.entries pp (some (.occupied key v1))) pp
                (some (.occupied key v2)) }, ?_, ?_, rfl⟩
    · simp only [StorageMap.insert, StorageMap.probe, hpi, upd_self]
    · have hg2 := probeAux_retrace v2 false hpi
      simp only [StorageMap.get, StorageMap.probe, hg2, upd_self]
  · have hrm := probeAux_retrace v1 false hax
    refine ⟨{ len := m.len,
              entries := upd (upd m.entries pp (some (.occupied key v1))) pp none },
      ?_, rfl, ?_⟩
    · simp only [StorageMap.remove, StorageMap.probe, hrm, upd_self]
    · have hcl := probeAux_retrace_cleared hax
      have hcg : StorageMap.probeAux
          (upd (upd m.entries pp (some (MapEntry.occupied key v1))) pp none)
          key (h key % u32Mod) true fuel 0 = some (false, pp) := by
        rw [probeAux_congr (upd_upd m.entries pp (some (MapEntry.occupied key v1)) none)
          key (h key % u32Mod) true fuel 0]
        exact hcl
      refine ⟨{ len := m.len,
                entries := upd (upd (upd m.entries pp (some (.occupied key v1))) pp none)
                  pp (some (.occupied key v2)) }, ?_, ?_, rfl⟩
      · simp only [StorageMap.insert, StorageMap.probe, hcg]
      · have hg3 := probeAux_retrace v2 false hcg
        simp only [StorageMap.get, StorageMap.probe, hg3, upd_self]

/-- Witness for C3 at a concrete input: the empty map over `Nat` keys and
values, key 1, values 10 then 20, probe fuel 1. -/
theorem c3_insert_get_overwrite_reinsert_witness :
    StorageMap.get hzero 1 1 c1m1 = some (some 10) ∧
    c1m1.len = (StorageMap.empty : StorageMap Nat Nat).len ∧
    (∃ m2, StorageMap.insert hzero 1 20 1 c1m1 = some (some 10, m2) ∧
      StorageMap.get hzero 1 1 m2 = some (some 20) ∧
      m2.len = (StorageMap.empty : StorageMap Nat Nat).len) ∧
    (∃ mr, StorageMap.remove hzero 1 1 c1m1 = some (some 10, mr) ∧
      mr.len = (StorageMap.empty : StorageMap Nat Nat).len ∧
      ∃ m3, StorageMap.insert hzero 1 20 1 mr = some (none, m3) ∧
        StorageMap.get hzero 1 1 m3 = some (some 20) ∧
        m3.len = (StorageMap.empty : StorageMap Nat Nat).len) :=
  c3_insert_get_overwrite_reinsert hzero StorageMap.empty 1 10 20 1 none c1m1 rfl

theorem shiftLeft_lor_eq_add {a b n : Nat} (hb : b < 2 ^ n) :
    (a <<< n) ||| b = a * 2 ^ n + b := by
  apply Nat.eq_of_testBit_eq
  intro j
  rw [Nat.testBit_lor, Nat.testBit_shiftLeft]
  rw [Nat.mul_comm a (2 ^ n), Nat.testBit_mul_pow_two_add a hb j]
  rcases Nat.lt_or_ge j n with hj | hj
  · have h1 : decide (j ≥ n) = false := by simp; omega
    rw [if_pos hj, h1]
    simp
  · have h1 : decide (j ≥ n) = true := by simp; omega
    have h2 : ¬ j < n := by omega
    rw [if_neg h2, h1]
    have h3 : b.testBit j = false :=
      Nat.testBit_eq_false_of_lt (lt_of_lt_of_le hb (Nat.pow_le_pow_right (by omega) hj))
    rw [h3]
    simp

/-- `bytes_to_u32` interprets its four bytes as a big-endian `u32`: the
first byte is the most significant. -/
theorem bytes_to_u32_be {b0 b1 b2 b3 : Nat}
    (h0 : b0 < 256) (h1 : b1 < 256) (h2 : b2 < 256) (h3 : b3 < 256) :
    bytes_to_u32 b0 b1 b2 b3 = ((b0 * 256 + b1) * 256 + b2) * 256 + b3 := by
  unfold bytes_to_u32
  rw [Nat.zero_or, Nat.shiftLeft_zero]
  rw [Nat.lor_assoc, Nat.lor_assoc]
  rw [shiftLeft_lor_eq_add (show b3 < 2 ^ 8 by omega)]
  rw [shiftLeft_lor_eq_add (show b2 * 2 ^ 8 + b3 < 2 ^ 16 by omega)]
  rw [shiftLeft_lor_eq_add (show b1 * 2 ^ 16 + (b2 * 2 ^ 8 + b3) < 2 ^ 24 by omega)]
  omega

theorem bytes_to_u32_lt {b0 b1 b2 b3 : Nat}
    (h0 : b0 < 256) (h1 : b1 < 256) (h2 : b2 < 256) (h3 : b3 < 256) :
    bytes_to_u32 b0 b1 b2 b3 < u32Mod := by
  rw [bytes_to_u32_be h0 h1 h2 h3]
  unfold u32Mod
  omega

theorem probeAux_spec {K V : Type} [DecidableEq K]
    {e : Nat → Option (MapEntry K V)} {key : K} {start : Nat} :
    ∀ {fuel hops : Nat} {b : Bool} {p : Nat},
    StorageMap.probeAux e key start true fuel hops = some (b, p) →
    ∃ n, hops ≤ n ∧
      p = (start + n * n) % u32Mod ∧
      (∀ j, hops ≤ j → j < n →
        ∃ k2 v, e ((start + j * j) % u32Mod) = some (.occupied k2 v) ∧ k2 ≠ key) ∧
      ((b = true ∧ ∃ v, e p = some (.occupied key v)) ∨
       (b = false ∧ (e p = some .removed ∨ e p = none))) := by
  intro fuel
  induction fuel with
  | zero =>
    intro hops b p h
    exact absurd h (by simp [StorageMap.probeAux])
  | succ n ih =>
    intro hops b p h
    cases he : e ((start + hops * hops) % u32Mod) with
    | none =>
      simp only [StorageMap.probeAux, he, if_true] at h
      simp only [Option.some.injEq, Prod.mk.injEq] at h
      obtain ⟨hb, hp⟩ := h
      subst hb
      subst hp
      exact ⟨hops, Nat.le_refl _, rfl, fun j h1 h2 => absurd h2 (by omega),
        Or.inr ⟨rfl, Or.inr he⟩⟩
    | some entry =>
      cases entry with
      | removed =>
        simp only [StorageMap.probeAux, he, if_true] at h
        simp only [Option.some.injEq, Prod.mk.injEq] at h
        obtain ⟨hb, hp⟩ := h
        subst hb
        subst hp
        exact ⟨hops, Nat.le_refl _, rfl, fun j h1 h2 => absurd h2 (by omega),
          Or.inr ⟨rfl, Or.inl he⟩⟩
      | occupied k2 v =>
        by_cases hk : k2 = key
        · simp only [StorageMap.probeAux, he, if_pos hk] at h
          simp only [Option.some.injEq, Prod.mk.injEq] at h
          obtain ⟨hb, hp⟩ := h
          subst hb
          subst hp
          rw [hk] at he
          exact ⟨hops, Nat.le_refl _, rfl, fun j h1 h2 => absurd h2 (by omega),
            Or.inl ⟨rfl, v, he⟩⟩
        · simp only [StorageMap.probeAux, he, if_neg hk] at h
          obtain ⟨nn, hle, hp, hprev, hstop⟩ := ih h
          refine ⟨nn, by omega, hp, ?_, hstop⟩
          intro j h1 h2
          rcases Nat.eq_or_lt_of_le h1 with rfl | hgt
          · exact ⟨k2, v, he, hk⟩
          · exact hprev j hgt h2

/-- C7: when the probe-start value is assembled by `bytes_to_u32` from the
first four bytes of the key's hash digest (the digest itself, keccak-256 in
the source, is abstracted as the four byte functions `hb0`-`hb3`, each a
byte), the probe start equals the big-endian 32-bit interpretation of those
bytes, and a terminating insertion probe stops at `(probe_start + n*n) %
2^32` for some hop count `n` such that every earlier probe index
`(probe_start + j*j) % 2^32`, `j < n`, held an occupied entry with a
non-matching key, and the stop slot is an occupied matching entry exactly
when the probe reports an overwrite (`true`) and a `Removed`-or-never-written
slot exactly when it reports a usable free slot (`false`). -/
theorem c7_probe_start_and_quadratic_walk {K V : Type} [DecidableEq K]
    (hb0 hb1 hb2 hb3 : K → Nat)
    (hbyte : ∀ k, hb0 k < 256 ∧ hb1 k < 256 ∧ hb2 k < 256 ∧ hb3 k < 256)
    (m : StorageMap K V) (key : K) (fuel : Nat) (b : Bool) (p : Nat)
    (hpr : StorageMap.probe
      (fun k => bytes_to_u32 (hb0 k) (hb1 k) (hb2 k) (hb3 k))
      m key true fuel = some (b, p)) :
    bytes_to_u32 (hb0 key) (hb1 key) (hb2 key) (hb3 key)
      = ((hb0 key * 256 + hb1 key) * 256 + hb2 key) * 256 + hb3 key ∧
    bytes_to_u32 (hb0 key) (hb1 key) (hb2 key) (hb3 key) < u32Mod ∧
    ∃ n, p = (bytes_to_u32 (hb0 key) (hb1 key) (hb2 key) (hb3 key) + n * n) % u32Mod ∧
      (∀ j, j < n → ∃ k2 v,
        m.entries ((bytes_to_u32 (hb0 key) (hb1 key) (hb2 key) (hb3 key) + j * j) % u32Mod)
          = some (.occupied k2 v) ∧ k2 ≠ key) ∧
      ((b = true ∧ ∃ v, m.entries p = some (.occupied key v)) ∨
       (b = false ∧ (m.entries p = some .removed ∨ m.entries p = none))) := by
  obtain ⟨hB0, hB1, hB2, hB3⟩ := hbyte key
  have hlt : bytes_to_u32 (hb0 key) (hb1 key) (hb2 key) (hb3 key) < u32Mod :=
    bytes_to_u32_lt hB0 hB1 hB2 hB3
  refine ⟨bytes_to_u32_be hB0 hB1 hB2 hB3, hlt, ?_⟩
  have hmod : bytes_to_u32 (hb0 key) (hb1 key) (hb2 key) (hb3 key) % u32Mod
      = bytes_to_u32 (hb0 key) (hb1 key) (hb2 key) (hb3 key) :=
    Nat.mod_eq_of_lt hlt
  have hax : StorageMap.probeAux m.entries key
      (bytes_to_u32 (hb0 key) (hb1 key) (hb2 key) (hb3 key)) true fuel 0
      = some (b, p) := by
    have := hpr
    unfold StorageMap.probe at this
    rw [hmod] at this
    exact this
  obtain ⟨n, -, hp, hprev, hstop⟩ := probeAux_spec hax
  exact ⟨n, hp, fun j hj => hprev j (Nat.zero_le _) hj, hstop⟩

/-- Witness for C7 at a concrete input: constant hash bytes `(0,0,0,5)`,
the empty map, key 1, fuel 1; the probe stops immediately at index 5 with a
free slot. -/
theorem c7_probe_start_and_quadratic_walk_witness :
    bytes_to_u32 0 0 0 5 = ((0 * 256 + 0) * 256 + 0) * 256 + 5 ∧
    bytes_to_u32 0 0 0 5 < u32Mod ∧
    ∃ n, (5 : Nat) = (bytes_to_u32 0 0 0 5 + n * n) % u32Mod ∧
      (∀ j, j < n → ∃ k2 v,
        (StorageMap.empty : StorageMap Nat Nat).entries
          ((bytes_to_u32 0 0 0 5 + j * j) % u32Mod)
          = some (.occupied k2 v) ∧ k2 ≠ 1) ∧
      ((false = true ∧ ∃ v, (StorageMap.empty : StorageMap Nat Nat).entries 5
          = some (.occupied 1 v)) ∨
       (false = false ∧ ((StorageMap.empty : StorageMap Nat Nat).entries 5
          = some .removed ∨ (StorageMap.empty : StorageMap Nat Nat).entries 5 = none))) :=
  c7_probe_start_and_quadratic_walk (fun _ => 0) (fun _ => 0) (fun _ => 0) (fun _ => 5)
    (fun _ => ⟨by norm_num, by norm_num, by norm_num, by norm_num⟩)
    StorageMap.empty 1 1 false 5 (by decide)

/-- Modelled from the spec: `RawCell` (not in the excerpt) owns one storage
slot whose durable content is either absent or a byte string; `TypedCell`
wraps it with the parity codec, taken here as abstract `encode`/`decode`
parameters. -/
def RawCellState : Type := Option (List Nat)

namespace TypedCell

/-- `TypedCell::load`: load the raw bytes and `and_then` decode them. -/
def load {T : Type} (dec : List Nat → Option T) (cell : RawCellState) : Option T :=
  cell.bind fun bytes => dec bytes

/-- `TypedCell::store`: encode the value and store the bytes. -/
def store {T : Type} (enc : T → List Nat) (val : T) (_cell : RawCellState) : RawCellState :=
  some (enc val)

/-- `TypedCell::clear`: clear the raw cell. -/
def clear (_cell : RawCellState) : RawCellState :=
  none

end TypedCell

/-- C10: `load()` returns `None` exactly when the raw cell holds no bytes or
the stored bytes fail to decode — a decode failure is indistinguishable from
true absence at the `load` interface — while `store(v)` followed by `load()`
returns `Some v` whenever `v`'s encoding decodes back to `v`. -/
theorem c10_load_none_iff_absent_or_undecodable {T : Type}
    (enc : T → List Nat) (dec : List Nat → Option T) (v : T)
    (c : RawCellState) (hrt : dec (enc v) = some v) :
    TypedCell.load dec (TypedCell.store enc v c) = some v ∧
    ∀ c2 : RawCellState,
      (TypedCell.load dec c2 = none ↔
        c2 = none ∨ ∃ bs, c2 = some bs ∧ dec bs = none) := by
  constructor
  · simp [TypedCell.load, TypedCell.store, hrt]
  · intro c2
    cases c2 with
    | none => simp [TypedCell.load]
    | some bs =>
      cases hd : dec bs with
      | none =>
        constructor
        · intro _
          exact Or.inr ⟨bs, rfl, hd⟩
        · intro _
          show dec bs = none
          exact hd
      | some t =>
        constructor
        · intro hcontra
          have hcd : dec bs = none := hcontra
          rw [hd] at hcd
          exact absurd hcd (by simp)
        · rintro (hcontra | ⟨bs2, hbs, hdec⟩)
          · exact absurd hcontra (by simp)
          · have hbs2 : bs2 = bs := (Option.some.inj hbs).symm
            rw [hbs2, hd] at hdec
            exact absurd hdec (by simp)

/-- An encoding of naturals used by the C10 witness. -/
def natEnc : Nat → List Nat := fun n => [n]

/-- The matching decoding, failing on the empty byte string. -/
def natDec : List Nat → Option Nat := fun l => l.head?

/-- Witness for C10 at a concrete input: the singleton-list codec on `Nat`,
value 7, an absent raw cell. -/
theorem c10_load_none_iff_absent_or_undecodable_witness :
    TypedCell.load natDec (TypedCell.store natEnc 7 none) = some 7 ∧
    ∀ c2 : RawCellState,
      (TypedCell.load natDec c2 = none ↔
        c2 = none ∨ ∃ bs, c2 = some bs ∧ natDec bs = none) :=
  c10_load_none_iff_absent_or_undecodable natEnc natDec 7 none rfl
